import Mathlib

/-!
Verification of the 2D simplex-noise implementation (`simplex_noise_2d.js`).

Shallow embedding conventions:
* JavaScript 32-bit integer bit patterns are modelled as `ℕ` values kept
  below `2 ^ 32` (`| 0`, `Math.imul` and `>>> 0` all work on the same
  32-bit pattern, so unsigned residues mod `2 ^ 32` model them exactly);
* `Uint8Array` cells are `ℕ` values written modulo `256`;
* the floating-point values produced by `splitmix32` and consumed by the
  shuffle in `seed` are exact: `t / 2 ^ 32` is a dyadic rational with at
  most 32 significant bits and `(t / 2 ^ 32) * (256 - i)` needs at most
  41 < 53 significant bits, so JavaScript doubles represent every
  intermediate value exactly and the embedding uses `ℚ` for them;
* the real-valued noise kernel (`grad`, `noise`, `fbm`) is embedded over
  `ℝ`, with `Math.sqrt(3.0)` idealised as `Real.sqrt 3`.
-/

namespace SimplexNoise

/-- One call of the generator returned by `splitmix32`:
`a |= 0; a = a + 0x9e3779b9 | 0; var t = a ^ a >>> 16; t = Math.imul(t, 0x21f0aaad);
t = t ^ t >>> 15; t = Math.imul(t, 0x735a2d97); return ((t = t ^ t >>> 15) >>> 0) / 4294967296`.
Returns the new state together with the 32-bit pattern `t` whose value
divided by `2 ^ 32` is the returned double. -/
def sm32next (a : ℕ) : ℕ × ℕ :=
  let a1 := (a % 4294967296 + 0x9e3779b9) % 4294967296
  let t1 := a1 ^^^ (a1 >>> 16)
  let t2 := t1 * 0x21f0aaad % 4294967296
  let t3 := t2 ^^^ (t2 >>> 15)
  let t4 := t3 * 0x735a2d97 % 4294967296
  let t5 := t4 ^^^ (t4 >>> 15)
  (a1, t5)

/-- The double returned by one `splitmix32` call (exact, as a rational). -/
def sm32out (a : ℕ) : ℚ :=
  ((sm32next a).2 : ℚ) / 4294967296

/-- `tableSize = 512` from the source. -/
def tableSize : ℕ := 512

/-- The working array `p` right before the shuffle:
`p = new Uint8Array(tableSize)` (all zero), then
`for (i = 0; i < tableSize / 2; i++) p[i] = i` (`Uint8Array` stores mod 256). -/
def initP : List ℕ :=
  (List.range 256).foldl (fun p i => p.set i (i % 256)) (List.replicate 512 0)

/-- One iteration of the shuffle loop in `seed`:
`let r = i + ~~(random() * (256 - i)); [p[r], p[i]] = [p[i], p[r]]`.
The destructuring assignment evaluates `[p[i], p[r]]` first, then writes
`p[r]` and `p[i]` (mod 256, `Uint8Array`).  `~~` truncates toward zero,
which on the nonnegative product is the floor. -/
def shuffleStep (s : ℕ × List ℕ) (i : ℕ) : ℕ × List ℕ :=
  let a1 := (sm32next s.1).1
  let t5 := (sm32next s.1).2
  let r := i + (⌊(t5 : ℚ) / 4294967296 * ((256 : ℚ) - (i : ℚ))⌋).toNat
  let pi := s.2.getD i 0
  let pr := s.2.getD r 0
  (a1, (s.2.set r (pi % 256)).set i (pr % 256))

/-- PRNG state and working array after the shuffle loop of `seed(k)`:
`for (i = 0; i < tableSize / 2 - 1; i++) { ... }` runs for `i = 0, …, 254`. -/
def seedState (k : ℕ) : ℕ × List ℕ :=
  (List.range 255).foldl shuffleStep (k, initP)

/-- The working array `p` after the shuffle loop of `seed(k)`. -/
def pArray (k : ℕ) : List ℕ := (seedState k).2

/-- The global `perm` table after `seed(k)`:
`for (i = 0; i < tableSize; i++) perm[i] = p[i & 255]` (mod 256, `Uint8Array`). -/
def permList (k : ℕ) : List ℕ :=
  (List.range 512).map fun i => (pArray k).getD (i &&& 255) 0 % 256

/-- The global `permMod12` table after `seed(k)`:
`permMod12[i] = perm[i] % 12` (mod 256, `Uint8Array`), reading the `perm`
entry written in the same iteration. -/
def permMod12List (k : ℕ) : List ℕ :=
  (List.range 512).map fun i => (permList k).getD i 0 % 12 % 256

/-- A nat-division form of `shuffleStep`: the rational floor
`⌊t / 2 ^ 32 * (256 - i)⌋` equals the integer quotient `t * (256 - i) / 2 ^ 32`
(for `i ≤ 256`), which the kernel evaluates fast. -/
def shuffleStepN (s : ℕ × List ℕ) (i : ℕ) : ℕ × List ℕ :=
  let a1 := (sm32next s.1).1
  let t5 := (sm32next s.1).2
  let r := i + t5 * (256 - i) / 4294967296
  let pi := s.2.getD i 0
  let pr := s.2.getD r 0
  (a1, (s.2.set r (pi % 256)).set i (pr % 256))

theorem ratFloor_eq_natDiv (t n : ℕ) :
    (⌊(t : ℚ) / 4294967296 * (n : ℚ)⌋).toNat = t * n / 4294967296 := by
  have h : (t : ℚ) / 4294967296 * (n : ℚ) = (((t * n : ℕ) : ℤ) : ℚ) / ((4294967296 : ℕ) : ℚ) := by
    push_cast
    ring
  rw [h, Rat.floor_intCast_div_natCast]
  omega

theorem shuffleStep_eq_natDiv : shuffleStep = shuffleStepN := by
  funext s i
  simp only [shuffleStep, shuffleStepN]
  by_cases hi : i ≤ 256
  · have h : ((256 : ℚ) - (i : ℚ)) = ((256 - i : ℕ) : ℚ) := by
      push_cast [hi]
      ring
    rw [h, ratFloor_eq_natDiv]
  · have h0 : 256 - i = 0 := by omega
    have hq : ((256 : ℚ) - (i : ℚ)) ≤ 0 := by
      have h1 : (256 : ℚ) ≤ (i : ℚ) := by exact_mod_cast (by omega : (256 : ℕ) ≤ i)
      linarith
    have hfl : ∀ t : ℕ, (⌊(t : ℚ) / 4294967296 * ((256 : ℚ) - (i : ℚ))⌋).toNat = 0 := by
      intro t
      apply Int.toNat_of_nonpos
      calc ⌊(t : ℚ) / 4294967296 * ((256 : ℚ) - (i : ℚ))⌋
          ≤ ⌊(0 : ℚ)⌋ := by
            apply Int.floor_le_floor
            apply mul_nonpos_of_nonneg_of_nonpos
            · positivity
            · exact hq
        _ = 0 := Int.floor_zero
    simp only [hfl, h0, Nat.mul_zero, Nat.zero_div]

/-- Spec description of the state update of one SplitMix32 call:
`a := a + 0x9e3779b9` wrapping at 32 bits. -/
def smSpecState (a : ℕ) : ℕ := (a + 0x9e3779b9) % 2 ^ 32

/-- Spec description of the output word of one SplitMix32 call:
`t := a XOR (a >>> 16); t := t * 0x21f0aaad` wrapping at 32 bits;
`t := t XOR (t >>> 15); t := t * 0x735a2d97` wrapping at 32 bits;
`t := t XOR (t >>> 15)`, computed from the updated state. -/
def smSpecT (a : ℕ) : ℕ :=
  let a1 := (a + 0x9e3779b9) % 2 ^ 32
  let t1 := a1 ^^^ (a1 >>> 16)
  let t2 := t1 * 0x21f0aaad % 2 ^ 32
  let t3 := t2 ^^^ (t2 >>> 15)
  let t4 := t3 * 0x735a2d97 % 2 ^ 32
  t4 ^^^ (t4 >>> 15)

theorem shiftRight_le_self (m n : ℕ) : m >>> n ≤ m := by
  rw [Nat.shiftRight_eq_div_pow]
  exact Nat.div_le_self _ _

theorem xorShift_lt (y s : ℕ) : ((y % 4294967296) ^^^ ((y % 4294967296) >>> s)) < 4294967296 := by
  have h2 : (4294967296 : ℕ) = 2 ^ 32 := by norm_num
  have h4 : y % 4294967296 < 4294967296 := Nat.mod_lt _ (by norm_num)
  rw [h2] at h4 ⊢
  exact Nat.xor_lt_two_pow h4 (Nat.lt_of_le_of_lt (shiftRight_le_self _ _) h4)

theorem sm32next_snd_lt (a : ℕ) : (sm32next a).2 < 4294967296 := by
  simp only [sm32next]
  exact xorShift_lt _ _

theorem sm32out_nonneg (a : ℕ) : 0 ≤ sm32out a := by
  unfold sm32out
  positivity

theorem sm32out_lt_one (a : ℕ) : sm32out a < 1 := by
  unfold sm32out
  rw [div_lt_one (by norm_num)]
  exact_mod_cast sm32next_snd_lt a

/-- C2: for every 32-bit state `a`, one call of the generator returned by
`splitmix32` advances the state to `a + 0x9e3779b9` wrapped at 32 bits,
computes `t` by the spec's xorshift-multiply chain (xor with `>>> 16`,
wrapping multiply by `0x21f0aaad`, xor with `>>> 15`, wrapping multiply by
`0x735a2d97`, xor with `>>> 15`), and returns the unsigned 32-bit value of
`t` divided by `2 ^ 32`, a number in `[0, 1)`. -/
theorem splitmix32_step (a : ℕ) (h : a < 2 ^ 32) :
    (sm32next a).1 = smSpecState a ∧
    (sm32next a).2 = smSpecT a ∧
    (sm32next a).2 < 2 ^ 32 ∧
    sm32out a = (smSpecT a : ℚ) / 2 ^ 32 ∧
    0 ≤ sm32out a ∧ sm32out a < 1 := by
  have h' : a < 4294967296 := by norm_num at h; exact h
  have hm : a % 4294967296 = a := Nat.mod_eq_of_lt h'
  have h1 : (sm32next a).1 = smSpecState a := by
    simp only [sm32next, smSpecState]
    rw [hm]
    norm_num
  have h2 : (sm32next a).2 = smSpecT a := by
    simp only [sm32next, smSpecT]
    rw [hm]
    norm_num
  refine ⟨h1, h2, ?_, ?_, sm32out_nonneg a, sm32out_lt_one a⟩
  · have := sm32next_snd_lt a
    norm_num
    exact this
  · rw [sm32out, h2]
    norm_num

theorem splitmix32_step_witness :
    (37 : ℕ) < 2 ^ 32 ∧
    ((sm32next 37).1 = smSpecState 37 ∧
     (sm32next 37).2 = smSpecT 37 ∧
     (sm32next 37).2 < 2 ^ 32 ∧
     sm32out 37 = (smSpecT 37 : ℚ) / 2 ^ 32 ∧
     0 ≤ sm32out 37 ∧ sm32out 37 < 1) :=
  ⟨by norm_num, splitmix32_step 37 (by norm_num)⟩

theorem count_set_aux (l : List ℕ) (n b v : ℕ) (h : n < l.length) :
    (l.set n b).count v + (if l.getD n 0 = v then 1 else 0)
      = l.count v + (if b = v then 1 else 0) := by
  rw [List.getD_eq_getElem l 0 h, List.set_eq_take_cons_drop b h]
  conv_rhs => rw [← List.take_append_drop n l, List.drop_eq_getElem_cons h]
  simp only [List.count_append, List.count_cons, beq_iff_eq]
  split_ifs <;> omega

theorem set_set_swap_perm (q : List ℕ) (i r : ℕ) (hi : i < q.length) (hr : r < q.length) :
    ((q.set r (q.getD i 0)).set i (q.getD r 0)).Perm q := by
  rw [List.perm_iff_count]
  intro v
  have hl1 : (q.set r (q.getD i 0)).length = q.length := by simp
  have e1 := count_set_aux (q.set r (q.getD i 0)) i (q.getD r 0) v (by rw [hl1]; exact hi)
  have e2 := count_set_aux q r (q.getD i 0) v hr
  by_cases hir : r = i
  · subst hir
    have hsame : (q.set r (q.getD r 0)).getD r 0 = q.getD r 0 := by
      rw [List.getD_eq_getElem _ 0 (by rw [hl1]; exact hr)]
      simp [List.getElem_set]
    rw [hsame] at e1
    split_ifs at e1 e2 <;> omega
  · have hlen : i < (q.set r (q.getD i 0)).length := by rw [hl1]; exact hi
    have hother : (q.set r (q.getD i 0)).getD i 0 = q.getD i 0 :=
      calc (q.set r (q.getD i 0)).getD i 0
          = (q.set r (q.getD i 0)).get ⟨i, hlen⟩ := List.getD_eq_get _ 0 hlen
        _ = q.get ⟨i, hi⟩ := by simp [List.get_eq_getElem, List.getElem_set, hir]
        _ = q.getD i 0 := (List.getD_eq_get q 0 hi).symm
    rw [hother] at e1
    split_ifs at e1 e2 <;> omega

/-- The shuffle iteration exactly as the spec words it: draw
`r = i + floor(random() * (256 - i))` from the SplitMix32 generator and
swap `p[i]` with `p[r]`, on the 256-entry working array. -/
def specShuffleStep (s : ℕ × List ℕ) (i : ℕ) : ℕ × List ℕ :=
  let a1 := (sm32next s.1).1
  let r := i + (⌊sm32out s.1 * ((256 : ℚ) - (i : ℚ))⌋).toNat
  (a1, (s.2.set r (s.2.getD i 0)).set i (s.2.getD r 0))

/-- The spec's partial Fisher–Yates shuffle: start from `p[i] = i`
(`i = 0, …, 255`) and run the swap step for `i = 0, …, 254` with the
SplitMix32 generator seeded with `k`. -/
def specShuffle (k : ℕ) : List ℕ :=
  ((List.range 255).foldl specShuffleStep (k, List.range 256)).2

/-- Relation between the source shuffle state (512-entry `Uint8Array`) and
the spec's shuffle state (256-entry array): same PRNG state, the source
array is the spec array followed by 256 untouched zeros, and the spec
array stays a permutation of `0, …, 255`. -/
def SeedInv (src spc : ℕ × List ℕ) : Prop :=
  src.1 = spc.1 ∧ src.2 = spc.2 ++ List.replicate 256 0 ∧ spc.2.Perm (List.range 256)

theorem getD_lt_of_perm_range (q : List ℕ) (hq : q.Perm (List.range 256)) (n : ℕ)
    (hn : n < q.length) : q.getD n 0 < 256 := by
  rw [List.getD_eq_get q 0 hn]
  have hmem : q.get ⟨n, hn⟩ ∈ q := List.get_mem q n hn
  have hmem2 : q.get ⟨n, hn⟩ ∈ List.range 256 := (List.Perm.mem_iff hq).mp hmem
  exact List.mem_range.mp hmem2

theorem seedInv_step {src spc : ℕ × List ℕ} {i : ℕ} (hi : i < 255) (h : SeedInv src spc) :
    SeedInv (shuffleStep src i) (specShuffleStep spc i) := by
  obtain ⟨h1, h2, h3⟩ := h
  have hqlen : spc.2.length = 256 := by rw [List.Perm.length_eq h3, List.length_range]
  have hrq : ((256 : ℚ) - (i : ℚ)) = ((256 - i : ℕ) : ℚ) := by
    have hle : i ≤ 256 := by omega
    push_cast [hle]
    ring
  have hfloor : ∀ a : ℕ,
      (⌊((sm32next a).2 : ℚ) / 4294967296 * ((256 : ℚ) - (i : ℚ))⌋).toNat
        = (sm32next a).2 * (256 - i) / 4294967296 := by
    intro a
    rw [hrq, ratFloor_eq_natDiv]
  have hrlt : (sm32next spc.1).2 * (256 - i) / 4294967296 < 256 - i := by
    have h5 := sm32next_snd_lt spc.1
    have hpos : 0 < 256 - i := by omega
    rw [Nat.div_lt_iff_lt_mul (by norm_num : 0 < (4294967296 : ℕ)),
      Nat.mul_comm (256 - i) 4294967296]
    exact mul_lt_mul_of_pos_right h5 hpos
  have hr : i + (sm32next spc.1).2 * (256 - i) / 4294967296 < 256 := by omega
  have hgetD : ∀ n, n < 256 → src.2.getD n 0 = spc.2.getD n 0 := by
    intro n hn
    rw [h2]
    exact List.getD_append _ _ _ _ (by omega)
  have hid : ∀ n, n < 256 → spc.2.getD n 0 % 256 = spc.2.getD n 0 := by
    intro n hn
    exact Nat.mod_eq_of_lt (getD_lt_of_perm_range spc.2 h3 n (by omega))
  simp only [shuffleStep, specShuffleStep, sm32out, h1, hfloor]
  refine ⟨rfl, ?_, ?_⟩
  · dsimp only
    rw [hgetD i (by omega), hgetD _ hr, hid i (by omega), hid _ hr, h2]
    rw [List.set_append_left _ _ (by omega)]
    rw [List.set_append_left _ _ (by rw [List.length_set]; omega)]
  · exact (set_set_swap_perm spc.2 i _ (by omega) (by omega)).trans h3

theorem seedInv_fold : ∀ (l : List ℕ), (∀ i ∈ l, i < 255) → ∀ src spc, SeedInv src spc →
    SeedInv (l.foldl shuffleStep src) (l.foldl specShuffleStep spc)
  | [], _, _, _, h => h
  | i :: l, hl, src, spc, h => by
    simp only [List.foldl_cons]
    exact seedInv_fold l (fun j hj => hl j (List.mem_cons_of_mem i hj)) _ _
      (seedInv_step (hl i (List.mem_cons_self i l)) h)

set_option maxRecDepth 400000 in
theorem initP_eq : initP = List.range 256 ++ List.replicate 256 0 := by decide

set_option maxRecDepth 400000 in
theorem seedInv_seedState (k : ℕ) :
    SeedInv (seedState k) ((List.range 255).foldl specShuffleStep (k, List.range 256)) := by
  apply seedInv_fold
  · intro i hi
    exact List.mem_range.mp hi
  · exact ⟨rfl, initP_eq, List.Perm.refl _⟩

/-- C3: `seed(k)` initialises the working array with `p[i] = i` for
`i = 0, …, 255` (the remaining 256 cells of the 512-cell `Uint8Array` stay
zero), then performs exactly 255 swap iterations, for `i = 0, …, 254`,
each drawing `r = i + floor(random() * (256 - i))` from the SplitMix32
generator seeded with `k` and swapping `p[i]` with `p[r]`: the resulting
working array is exactly the spec's partial Fisher–Yates shuffle. -/
theorem seed_shuffle_spec (k : ℕ) :
    initP = List.range 256 ++ List.replicate 256 0 ∧
    pArray k = specShuffle k ++ List.replicate 256 0 :=
  ⟨initP_eq, (seedInv_seedState k).2.1⟩

theorem getD_map_range (f : ℕ → ℕ) (m n : ℕ) (h : n < m) :
    ((List.range m).map f).getD n 0 = f n := by
  have hlen : n < ((List.range m).map f).length := by simpa using h
  rw [List.getD_eq_getElem _ _ hlen, List.getElem_map, List.getElem_range]

theorem mask255_eq_mod (x : ℕ) : x &&& 255 = x % 256 := by
  have h := Nat.and_pow_two_sub_one_eq_mod x 8
  norm_num at h
  exact h

/-- C4: after any `seed(k)`, `permMod12[n] = perm[n] % 12` for every
`n < 512`, and `perm[n] = perm[n + 256]` for every `n < 256`. -/
theorem perm_tables_invariant (k n : ℕ) :
    (n < 512 → (permMod12List k).getD n 0 = (permList k).getD n 0 % 12) ∧
    (n < 256 → (permList k).getD n 0 = (permList k).getD (n + 256) 0) := by
  constructor
  · intro h
    rw [permMod12List, getD_map_range _ _ _ h]
    exact Nat.mod_eq_of_lt (Nat.lt_trans (Nat.mod_lt _ (by norm_num)) (by norm_num))
  · intro h
    rw [permList, getD_map_range _ _ _ (by omega), getD_map_range _ _ _ (by omega),
      mask255_eq_mod, mask255_eq_mod, Nat.add_mod_right]

theorem perm_tables_invariant_witness :
    (permMod12List 0).getD 7 0 = (permList 0).getD 7 0 % 12 ∧
    (permList 0).getD 7 0 = (permList 0).getD (7 + 256) 0 :=
  ⟨(perm_tables_invariant 0 7).1 (by norm_num), (perm_tables_invariant 0 7).2 (by norm_num)⟩

set_option maxRecDepth 400000 in
/-- C5: after any `seed(k)`, the first 256 entries of `perm` are a
permutation of `{0, …, 255}`. -/
theorem perm_first256_perm (k : ℕ) : ((permList k).take 256).Perm (List.range 256) := by
  obtain ⟨-, h2i, h3i⟩ := seedInv_seedState k
  have h2 : pArray k = specShuffle k ++ List.replicate 256 0 := h2i
  have h3 : (specShuffle k).Perm (List.range 256) := h3i
  have hqlen : (specShuffle k).length = 256 := by
    rw [List.Perm.length_eq h3, List.length_range]
  have htake : (permList k).take 256 = specShuffle k := by
    apply List.ext_getElem
    · simp [permList, hqlen]
    · intro n h1 hn2
      have hn : n < 256 := by
        simpa [permList] using h1
      have hlen : n < (permList k).length := by
        simp [permList]
        omega
      rw [List.getElem_take]
      simp only [permList, List.getElem_map, List.getElem_range]
      rw [mask255_eq_mod, Nat.mod_eq_of_lt hn]
      have hgd : (pArray k).getD n 0 = (specShuffle k).getD n 0 := by
        rw [h2]
        exact List.getD_append _ _ _ _ (by omega)
      have hlt : (specShuffle k).getD n 0 < 256 :=
        getD_lt_of_perm_range _ h3 n (by omega)
      rw [hgd, Nat.mod_eq_of_lt hlt, List.getD_eq_getElem _ _ (by omega)]
  rw [htake]
  exact h3

/-- The mutation performed by `seed(k)` on the global tables: every cell
`0 ≤ n < 512` of both `Uint8Array`s is overwritten (the loop runs over all
512 indices), independently of the previous contents. -/
def seedUpdate (k : ℕ) (permOld permMod12Old : ℕ → ℕ) : (ℕ → ℕ) × (ℕ → ℕ) :=
  (fun n => if n < 512 then (permList k).getD n 0 else permOld n,
   fun n => if n < 512 then (permMod12List k).getD n 0 else permMod12Old n)

/-- C6: seeding is deterministic in the seed value: two `seed(k)` calls
with the same `k`, starting from any two prior global table states,
produce identical `perm` and `permMod12` tables on every cell `n < 512`. -/
theorem seed_deterministic (k : ℕ) (p1 q1 p2 q2 : ℕ → ℕ) (n : ℕ) (h : n < 512) :
    (seedUpdate k p1 q1).1 n = (seedUpdate k p2 q2).1 n ∧
    (seedUpdate k p1 q1).2 n = (seedUpdate k p2 q2).2 n := by
  simp [seedUpdate, h]

theorem seed_deterministic_witness :
    (seedUpdate 5 (fun _ => 1) (fun _ => 2)).1 0 = (seedUpdate 5 (fun _ => 3) (fun _ => 4)).1 0 ∧
    (seedUpdate 5 (fun _ => 1) (fun _ => 2)).2 0 = (seedUpdate 5 (fun _ => 3) (fun _ => 4)).2 0 :=
  seed_deterministic 5 _ _ _ _ 0 (by norm_num)

/-- `F2 = 0.5 * (Math.sqrt(3.0) - 1.0)`, idealised over `ℝ`. -/
noncomputable def F2 : ℝ := 0.5 * (Real.sqrt 3 - 1)

/-- `G2 = (3.0 - Math.sqrt(3.0)) / 6.0`, idealised over `ℝ`. -/
noncomputable def G2 : ℝ := (3 - Real.sqrt 3) / 6

/-- `grad(hash, x, y)`: `h = hash & 0x0F`, `u = h < 8 ? x : y`,
`v = h < 4 ? y : 0`, result `((h & 1) == 0 ? u : -u) + ((h & 2) == 0 ? v : -v)`.
JavaScript `&` converts `hash` to a 32-bit integer first; for every integer
argument the value of `hash & 0x0F` is the nonnegative residue of `hash`
modulo 16. -/
noncomputable def grad (hash : ℤ) (x y : ℝ) : ℝ :=
  let h := (hash % 16).toNat
  let u := if h < 8 then x else y
  let v := if h < 4 then y else (0 : ℝ)
  (if h &&& 1 = 0 then u else -u) + (if h &&& 2 = 0 then v else -v)

/-- The claim's wording of the gradient dot function, with the sign choices
phrased through bit 0 and bit 1 of `h`. -/
noncomputable def gradSpec (hash : ℤ) (x y : ℝ) : ℝ :=
  let h := (hash % 16).toNat
  let u := if h < 8 then x else y
  let v := if h < 4 then y else (0 : ℝ)
  (if h.testBit 0 = false then u else -u) + (if h.testBit 1 = false then v else -v)

/-- `i &= 255` in `noise`: the lattice coordinate (an arbitrary integer
after `Math.floor`/`ToInt32`) is reduced to its low eight bits, the
nonnegative residue modulo 256. -/
def jsMask (i : ℤ) : ℕ := (i % 256).toNat

/-- The 2D simplex noise kernel `noise(xin, yin)`, parametrised by the
global tables (`pt` = `perm`, `pmt` = `permMod12`, as total functions on
indices; `noise` only reads indices below 512). Floating-point arithmetic
is idealised over `ℝ`. -/
noncomputable def noise (pt pmt : ℕ → ℕ) (xin yin : ℝ) : ℝ :=
  let s := (xin + yin) * F2
  let i : ℤ := ⌊xin + s⌋
  let j : ℤ := ⌊yin + s⌋
  let t := ((i : ℝ) + (j : ℝ)) * G2
  let x0 := xin - ((i : ℝ) - t)
  let y0 := yin - ((j : ℝ) - t)
  let i1 : ℕ := if x0 > y0 then 1 else 0
  let j1 : ℕ := if x0 > y0 then 0 else 1
  let x1 := x0 - (i1 : ℝ) + G2
  let y1 := y0 - (j1 : ℝ) + G2
  let x2 := x0 - 1 + 2 * G2
  let y2 := y0 - 1 + 2 * G2
  let ii := jsMask i
  let jj := jsMask j
  let gi0 := pmt (ii + pt jj)
  let gi1 := pmt (ii + i1 + pt (jj + j1))
  let gi2 := pmt (ii + 1 + pt (jj + 1))
  let t0 := 0.5 - x0 * x0 - y0 * y0
  let n0 := if t0 < 0 then (0 : ℝ) else (t0 * t0) * (t0 * t0) * grad (gi0 : ℤ) x0 y0
  let t1 := 0.5 - x1 * x1 - y1 * y1
  let n1 := if t1 < 0 then (0 : ℝ) else (t1 * t1) * (t1 * t1) * grad (gi1 : ℤ) x1 y1
  let t2 := 0.5 - x2 * x2 - y2 * y2
  let n2 := if t2 < 0 then (0 : ℝ) else (t2 * t2) * (t2 * t2) * grad (gi2 : ℤ) x2 y2
  70 * (n0 + n1 + n2)

/-- `fbm(x, y, octaves, amplitude, frequency, persistence, lacunarity)`:
the loop `total += noise(x*frequency, y*frequency) * amplitude;
amplitude *= persistence; frequency *= lacunarity` run `octaves` times,
written as structural recursion on the remaining octave count (the updated
amplitude and frequency are passed to the recursive call, exactly as the
loop carries them). -/
noncomputable def fbm (pt pmt : ℕ → ℕ) (x y : ℝ) :
    ℕ → ℝ → ℝ → ℝ → ℝ → ℝ
  | 0, _, _, _, _ => 0
  | n + 1, amplitude, frequency, persistence, lacunarity =>
      noise pt pmt (x * frequency) (y * frequency) * amplitude +
        fbm pt pmt x y n (amplitude * persistence) (frequency * lacunarity)
          persistence lacunarity

/-- C7: `fbm` with zero octaves returns exactly 0, for every coordinates
and parameters and any table state. -/
theorem fbm_zero_octaves (pt pmt : ℕ → ℕ) (x y amp freq pers lac : ℝ) :
    fbm pt pmt x y 0 amp freq pers lac = 0 := rfl

/-- C8: `fbm` with one octave is a single scaled sample:
`fbm(x, y, 1, amp, freq, pers, lac) = noise(x·freq, y·freq) · amp`,
with the tables in any state. -/
theorem fbm_one_octave (pt pmt : ℕ → ℕ) (x y amp freq pers lac : ℝ) :
    fbm pt pmt x y 1 amp freq pers lac = noise pt pmt (x * freq) (y * freq) * amp := by
  simp [fbm]

/-- C9: the gradient dot function agrees with the claim's description:
`h = hash & 0xF`, `u = x` if `h < 8` else `y`, `v = y` if `h < 4` else `0`,
and the result is `(u if bit 0 of h is 0 else -u) + (v if bit 1 of h is 0
else -v)`. -/
theorem grad_eq_gradSpec (hash : ℤ) (x y : ℝ) : grad hash x y = gradSpec hash x y := by
  unfold grad gradSpec
  generalize hg : (hash % 16).toNat = h
  have hlt : h < 16 := by omega
  interval_cases h <;> simp [Nat.testBit]

/-- C10: for every lattice pair `(i, j)` that `Math.floor`/`ToInt32` can
produce (any integers, covering NaN and infinities, which `ToInt32` sends
to 0) and either simplex branch, the masked coordinates lie in `[0, 255]`
and all five indices `noise` uses to read the 512-entry tables — `j`,
`j + 1`, `i + perm[j]`, `i + i1 + perm[j + j1]`, `i + 1 + perm[j + 1]`
(computed on the masked `i`, `j`) — are at most 511, provided every table
entry is at most 255 (as every `Uint8Array` cell is). -/
theorem noise_indices_in_bounds (pt : ℕ → ℕ) (hpt : ∀ n, pt n ≤ 255) (i j : ℤ) (br : Bool) :
    jsMask i ≤ 255 ∧ jsMask j ≤ 255 ∧
    jsMask j ≤ 511 ∧ jsMask j + 1 ≤ 511 ∧
    jsMask i + pt (jsMask j) ≤ 511 ∧
    jsMask i + (if br then 1 else 0) + pt (jsMask j + (if br then 0 else 1)) ≤ 511 ∧
    jsMask i + 1 + pt (jsMask j + 1) ≤ 511 := by
  have hmi : jsMask i ≤ 255 := by unfold jsMask; omega
  have hmj : jsMask j ≤ 255 := by unfold jsMask; omega
  have h1 := hpt (jsMask j)
  have h2a := hpt (jsMask j + 0)
  have h2b := hpt (jsMask j + 1)
  refine ⟨hmi, hmj, by omega, by omega, by omega, ?_, by omega⟩
  cases br <;> simp <;> omega

theorem noise_indices_in_bounds_witness :
    jsMask (-1) ≤ 255 ∧ jsMask 300 ≤ 255 ∧
    jsMask 300 ≤ 511 ∧ jsMask 300 + 1 ≤ 511 ∧
    jsMask (-1) + (fun _ => 255 : ℕ → ℕ) (jsMask 300) ≤ 511 ∧
    jsMask (-1) + (if true then 1 else 0) +
      (fun _ => 255 : ℕ → ℕ) (jsMask 300 + (if true then 0 else 1)) ≤ 511 ∧
    jsMask (-1) + 1 + (fun _ => 255 : ℕ → ℕ) (jsMask 300 + 1) ≤ 511 :=
  noise_indices_in_bounds (fun _ => 255) (fun _ => Nat.le_refl 255) (-1) 300 true

theorem sqrt3_sq : Real.sqrt 3 * Real.sqrt 3 = 3 := Real.mul_self_sqrt (by norm_num)

theorem sqrt3_lt_74 : Real.sqrt 3 < 7 / 4 := by
  nlinarith [sqrt3_sq, Real.sqrt_nonneg 3, sq_nonneg (Real.sqrt 3 - 7 / 4)]

theorem sqrt3_gt_32 : (3 / 2 : ℝ) < Real.sqrt 3 := by
  nlinarith [sqrt3_sq, Real.sqrt_nonneg 3]

theorem grad_zero (hash : ℤ) : grad hash 0 0 = 0 := by
  simp only [grad]
  split_ifs <;> simp

/-- C1 (amended): `noise` vanishes at the integer points on the
anti-diagonal: for all integers `a`, `b` with `a + b = 0` (these are the
integer inputs that coincide with simplex-cell corners) and any table
state, `noise(a, b) = 0`. -/
theorem noise_zero_on_antidiagonal (pt pmt : ℕ → ℕ) (a b : ℤ) (h : a + b = 0) :
    noise pt pmt (a : ℝ) (b : ℝ) = 0 := by
  have hb : (b : ℝ) = -(a : ℝ) := by
    have h0 := congrArg (fun z : ℤ => (z : ℝ)) h
    push_cast at h0
    linarith
  have hs : ((a : ℝ) + (b : ℝ)) * F2 = 0 := by rw [hb]; ring
  have hfa : ⌊(a : ℝ) + ((a : ℝ) + (b : ℝ)) * F2⌋ = a := by rw [hs, add_zero, Int.floor_intCast]
  have hfb : ⌊(b : ℝ) + ((a : ℝ) + (b : ℝ)) * F2⌋ = b := by rw [hs, add_zero, Int.floor_intCast]
  simp only [noise, hfa, hfb]
  have hab : (a : ℝ) + (b : ℝ) = 0 := by rw [hb]; ring
  have hx0 : (a : ℝ) - ((a : ℝ) - ((a : ℝ) + (b : ℝ)) * G2) = 0 := by rw [hab]; ring
  have hy0 : (b : ℝ) - ((b : ℝ) - ((a : ℝ) + (b : ℝ)) * G2) = 0 := by rw [hab]; ring
  simp only [hx0, hy0, gt_iff_lt, lt_self_iff_false, if_false, Nat.cast_zero, Nat.cast_one,
    sub_zero, zero_add, zero_sub, mul_zero, zero_mul, grad_zero, ite_self]
  have hc1 : (0.5 : ℝ) - G2 * G2 - (-1 + G2) * (-1 + G2) < 0 := by
    unfold G2
    nlinarith [sqrt3_sq, Real.sqrt_nonneg 3]
  have hc2 : (0.5 : ℝ) - (-1 + 2 * G2) * (-1 + 2 * G2) - (-1 + 2 * G2) * (-1 + 2 * G2) < 0 := by
    unfold G2
    nlinarith [sqrt3_sq, Real.sqrt_nonneg 3]
  rw [if_pos hc1, if_pos hc2]
  norm_num

theorem noise_zero_on_antidiagonal_witness :
    (2 : ℤ) + (-2) = 0 ∧
    noise (fun _ => 0) (fun _ => 0) ((2 : ℤ) : ℝ) ((-2 : ℤ) : ℝ) = 0 :=
  ⟨by norm_num, noise_zero_on_antidiagonal (fun _ => 0) (fun _ => 0) 2 (-2) (by norm_num)⟩

theorem pArrayN_eq (k : ℕ) : pArray k = ((List.range 255).foldl shuffleStepN (k, initP)).2 := by
  rw [pArray, seedState, shuffleStep_eq_natDiv]

set_option maxRecDepth 400000 in
theorem perm16_0 : (permList 16).getD 0 0 = 39 := by
  rw [permList, getD_map_range _ _ _ (by norm_num), pArrayN_eq]
  decide

set_option maxRecDepth 400000 in
theorem perm16_1 : (permList 16).getD 1 0 = 19 := by
  rw [permList, getD_map_range _ _ _ (by norm_num), pArrayN_eq]
  decide

set_option maxRecDepth 400000 in
theorem permMod12_16_40 : (permMod12List 16).getD 40 0 = 1 := by
  rw [permMod12List, getD_map_range _ _ _ (by norm_num), permList,
    getD_map_range _ _ _ (by norm_num), pArrayN_eq]
  decide

set_option maxRecDepth 400000 in
theorem permMod12_16_21 : (permMod12List 16).getD 21 0 = 0 := by
  rw [permMod12List, getD_map_range _ _ _ (by norm_num), permList,
    getD_map_range _ _ _ (by norm_num), pArrayN_eq]
  decide

/-- C1 counterexample: with the tables in the seeded state produced by
`seed(16)`, the integer lattice point `(1, 0)` has `noise(1, 0) ≠ 0`
(indeed `noise(1, 0) = 70 · (√3 - 3/2)⁴ · (1 - √3) < 0`), so `noise` is
not exactly 0 at every integer pair. -/
theorem noise_lattice_counterexample :
    noise (fun n => (permList 16).getD n 0) (fun n => (permMod12List 16).getD n 0) 1 0 ≠ 0 := by
  have hs32 := sqrt3_gt_32
  have hs74 := sqrt3_lt_74
  have hsq := sqrt3_sq
  have hfa : ⌊(1 : ℝ) + ((1 : ℝ) + 0) * F2⌋ = 1 := by
    rw [Int.floor_eq_iff]
    unfold F2
    push_cast
    constructor <;> nlinarith
  have hfb : ⌊(0 : ℝ) + ((1 : ℝ) + 0) * F2⌋ = 0 := by
    rw [Int.floor_eq_iff]
    unfold F2
    push_cast
    constructor <;> nlinarith
  simp only [noise, hfa, hfb]
  simp only [Int.cast_one, Int.cast_zero, add_zero, one_mul,
    show jsMask 1 = 1 from rfl, show jsMask 0 = 0 from rfl]
  have hx0 : (1 : ℝ) - (1 - G2) = G2 := by ring
  have hy0 : (0 : ℝ) - (0 - G2) = G2 := by ring
  simp only [hx0, hy0, gt_iff_lt, lt_self_iff_false, if_false]
  have e0 : (permList 16)[(0 : ℕ)]?.getD 0 = 39 := by
    rw [← List.getD_eq_getElem?_getD]
    exact perm16_0
  have e1 : (permList 16)[(1 : ℕ)]?.getD 0 = 19 := by
    rw [← List.getD_eq_getElem?_getD]
    exact perm16_1
  have e40 : (permMod12List 16)[(40 : ℕ)]?.getD 0 = 1 := by
    rw [← List.getD_eq_getElem?_getD]
    exact permMod12_16_40
  have e21 : (permMod12List 16)[(21 : ℕ)]?.getD 0 = 0 := by
    rw [← List.getD_eq_getElem?_getD]
    exact permMod12_16_21
  norm_num [e0, e1, e40, e21]
  clear e0 e1 e40 e21 hfa hfb
  have hg1 : grad 1 G2 G2 = 0 := by simp [grad]
  have hg0 : grad 0 (G2 - 1 + 2 * G2) (G2 - 1 + 2 * G2)
      = (G2 - 1 + 2 * G2) + (G2 - 1 + 2 * G2) := by simp [grad]
  have hc0 : ¬(1 / 2 - G2 * G2 < G2 * G2) := by
    rw [not_lt]
    unfold G2
    nlinarith
  have hc1 : 1 / 2 - (G2 + G2) * (G2 + G2) < (G2 - 1 + G2) * (G2 - 1 + G2) := by
    unfold G2
    nlinarith
  have hc2 : ¬(1 / 2 - (G2 - 1 + 2 * G2) * (G2 - 1 + 2 * G2)
      < (G2 - 1 + 2 * G2) * (G2 - 1 + 2 * G2)) := by
    rw [not_lt]
    unfold G2
    nlinarith
  rw [if_neg hc0, if_pos hc1, if_neg hc2, hg1, hg0]
  have hcneg : (G2 - 1 + 2 * G2) + (G2 - 1 + 2 * G2) < 0 := by
    unfold G2
    nlinarith
  have hE : (0 : ℝ) < 1 / 2 - (G2 - 1 + 2 * G2) * (G2 - 1 + 2 * G2)
      - (G2 - 1 + 2 * G2) * (G2 - 1 + 2 * G2) := by
    unfold G2
    nlinarith
  simp only [mul_zero, zero_add]
  apply ne_of_lt
  nlinarith [mul_pos (mul_pos hE hE) (mul_pos hE hE)]

end SimplexNoise
